import Mathlib

/-!
Verification development for the sampling-bias-corrected two-tower training
core in `src/embedding/google_tt/train.py`.

Numbers are embedded as exact rationals (`ℚ`) where the code uses float
arrays with only field operations, and as reals (`ℝ`) where `log`/`exp`
appear.  Numpy bucket-state arrays become functions `ℕ → ℚ`; a numpy
fancy-indexed in-place assignment `arr[idxs] = v` becomes the function that
returns the new value on every index occurring in `idxs` (numpy computes the
vectorized right-hand side from the pre-call array and then scatters it, so
duplicate indices all receive the same value and last-write-wins coincides
with this).  A TensorFlow op that raises on bad input (`tf.math.top_k` with
`k` larger than the batch) is embedded with `Option`, `none` meaning the
raised error.
-/

namespace DeepRecommend

/-- `sampling_p_estimation_single_hash(array_a, array_b, hash_indexs, global_step, alpha)`
from train.py lines 116-122:
`array_b[idxs] = (1-alpha)*array_b[idxs] + alpha*(global_step - array_a[idxs])`;
`array_a[idxs] = global_step`; `sampling_p = 1 / array_b[idxs]`;
returns the updated `array_a`, `array_b` and `sampling_p` (one entry per
touched index, in input order, read from the updated `array_b`). -/
def sampling_p_estimation_single_hash (array_a array_b : ℕ → ℚ)
    (hash_indexs : List ℕ) (global_step : ℚ) (alpha : ℚ) :
    (ℕ → ℚ) × (ℕ → ℚ) × List ℚ :=
  let array_b' : ℕ → ℚ := fun i =>
    if i ∈ hash_indexs then (1 - alpha) * array_b i + alpha * (global_step - array_a i)
    else array_b i
  let array_a' : ℕ → ℚ := fun i =>
    if i ∈ hash_indexs then global_step else array_a i
  (array_a', array_b', hash_indexs.map (fun i => 1 / array_b' i))

/-- One estimator call per batch, as the streaming branch of `train_model`
performs it: each call supplies the touched bucket indices and the current
step value.  Returns the final `(array_a, array_b)` state and the list of
`sampling_p` vectors returned by the successive calls. -/
def runEstimator (alpha : ℚ) :
    (ℕ → ℚ) × (ℕ → ℚ) → List (List ℕ × ℚ) → ((ℕ → ℚ) × (ℕ → ℚ)) × List (List ℚ)
  | st, [] => (st, [])
  | st, c :: rest =>
    let r := sampling_p_estimation_single_hash st.1 st.2 c.1 c.2 alpha
    let rec' := runEstimator alpha (r.1, r.2.1) rest
    (rec'.1, r.2.2 :: rec'.2)

/-- `hash_simple(ids, hash_bucket_size)` from train.py lines 125-129: cast the
ids to int32 (two's-complement wrap) and take `tf.math.mod`, whose result for
integer arguments has the sign of the divisor (floored modulo, Lean's `%` on
`ℤ` agrees with it for a positive divisor). -/
def toInt32 (i : ℤ) : ℤ := (i + 2 ^ 31) % 2 ^ 32 - 2 ^ 31

def hash_simple (ids : List ℤ) (hash_bucket_size : ℤ) : List ℤ :=
  ids.map (fun i => toInt32 i % hash_bucket_size)

/-- The fixed label weight vector `[0.5, 0.2, 0.1, 0.2, 0.]` of
`parse_csv_line` (train.py line 78), ordered click, like, share, favorite,
comment. -/
def label_weights : List ℚ := [1/2, 1/5, 1/10, 1/5, 0]

/-- `weight_labels = reduce_sum(multiply(labels, [0.5, 0.2, 0.1, 0.2, 0.]))`
from train.py lines 76-78, applied to the decoded numeric label vector. -/
def weight_labels (labels : List ℚ) : ℚ :=
  (List.zipWith (fun l w => l * w) labels label_weights).sum

/-- Insert an `(index, value)` pair into a list ranked by value descending,
ties broken by the lower index first, matching `tf.math.top_k` ordering. -/
def insertRanked (p : ℕ × ℚ) : List (ℕ × ℚ) → List (ℕ × ℚ)
  | [] => [p]
  | q :: rest =>
    if q.2 < p.2 ∨ (p.2 = q.2 ∧ p.1 < q.1) then p :: q :: rest
    else q :: insertRanked p rest

def rankSort : List (ℕ × ℚ) → List (ℕ × ℚ)
  | [] => []
  | p :: rest => insertRanked p (rankSort rest)

/-- `tf.math.top_k(output, k).indices`: the indices of the `k` largest
entries, in descending value order, ties by ascending index.  `tf.math.top_k`
raises `InvalidArgumentError` when `k` exceeds the length of `output`
(embedded as `none`), and in train.py it is evaluated before the
`tf.cond` zero-reward guard of `topk_recall` / `topk_positive`. -/
def top_k_indices (output : List ℚ) (k : ℕ) : Option (List ℕ) :=
  if k ≤ output.length then
    some (((rankSort output.enum).map Prod.fst).take k)
  else none

/-- `tf.math.count_nonzero` on a rational vector. -/
def countNonzero (l : List ℚ) : ℕ := (l.filter (fun x => decide (x ≠ 0))).length

/-- `tf.gather(reward, indices)`; all indices produced by `top_k_indices`
are in range, out-of-range defaults to `0`. -/
def gather (reward : List ℚ) (indices : List ℕ) : List ℚ :=
  indices.map (fun i => reward.getD i 0)

/-- `topk_recall(output, reward, k)` from train.py lines 151-161:
`top_k` first (raising when the batch is smaller than `k`), then
`count_nonzero(gather(reward, indices)) / count_nonzero(reward)` when the
batch has a nonzero reward, else the constant `0`. -/
def topk_recall (output reward : List ℚ) (k : ℕ) : Option ℚ :=
  match top_k_indices output k with
  | none => none
  | some indices =>
    if 0 < countNonzero reward then
      some ((countNonzero (gather reward indices) : ℚ) / (countNonzero reward : ℚ))
    else some 0

/-- `topk_positive(output, reward, k)` from train.py lines 164-174: as
`topk_recall` but dividing by `k`. -/
def topk_positive (output reward : List ℚ) (k : ℕ) : Option ℚ :=
  match top_k_indices output k with
  | none => none
  | some indices =>
    if 0 < countNonzero reward then
      some ((countNonzero (gather reward indices) : ℚ) / (k : ℚ))
    else some 0

/-- Per-row inner product `tf.reduce_sum(tf.math.multiply(x, y), axis=-1)`
of two batches of embedding rows (train.py line 134).  The scalar field and
the transcendental functions are abstracted so the definitions stay
executable; theorems instantiate `K := ℝ`, `klog := Real.log`,
`kexp := Real.exp`. -/
def inner_product {K : Type} [Field K] (x y : List (List K)) : List K :=
  List.zipWith (fun xr yr => (List.zipWith (fun a b => a * b) xr yr).sum) x y

/-- `log_q(x, y, sampling_p, temperature)` from train.py lines 132-137:
the per-row inner product scaled by `1/temperature`, minus
`log(sampling_p)` elementwise when `sampling_p` is not `None`. -/
def log_q {K : Type} [Field K] (klog : K → K) (x y : List (List K))
    (sampling_p : Option (List K)) (temperature : K) : List K :=
  let ip := (inner_product x y).map (fun v => v / temperature)
  match sampling_p with
  | some p => List.zipWith (fun v lp => v - klog lp) ip p
  | none => ip

/-- `corrected_batch_softmax(x, y, sampling_p)` from train.py lines 140-143:
`exp(z) / reduce_sum(exp(z))` where `z = log_q(x, y, sampling_p)` with the
default temperature `0.05`. -/
def corrected_batch_softmax {K : Type} [Field K] (kexp klog : K → K)
    (x y : List (List K)) (sampling_p : Option (List K)) : List K :=
  let z := log_q klog x y sampling_p (1/20)
  z.map (fun zi => kexp zi / (z.map kexp).sum)

/-- `reward_cross_entropy(reward, output) = -reduce_mean(reward * log(output))`
from train.py lines 146-148; `reduce_mean` of the elementwise product is its
sum divided by the batch size. -/
def reward_cross_entropy {K : Type} [Field K] (klog : K → K)
    (reward output : List K) : K :=
  -((List.zipWith (fun r o => r * klog o) reward output).sum
      / (reward.length : K))

/-- The per-epoch streaming estimator trace of `train_model`
(train.py lines 247-264): fresh arrays `array_a = zeros`,
`array_b = beta * ones` at epoch start, the step counter starting at 1 and
incremented once per batch, one `sampling_p_estimation_single_hash` call per
batch on that batch's hashed candidate ids. -/
def streamingEpoch (alpha beta : ℚ) (batches : List (List ℕ)) :
    ((ℕ → ℚ) × (ℕ → ℚ)) × List (List ℚ) :=
  runEstimator alpha (fun _ => 0, fun _ => beta)
    (batches.enum.map (fun c => (c.2, (c.1 : ℚ) + 1)))

/-- The epoch loop of `train_model` in streaming mode (train.py lines
247-264), threading the ambient `array_a`/`array_b` variables across epochs
the way the Python locals are: at each epoch start they are overwritten with
fresh `zeros` / `beta * ones` arrays before any batch is consumed.  Returns
the end-of-epoch estimator state of every epoch. -/
def train_model_streaming (alpha beta : ℚ) :
    (ℕ → ℚ) × (ℕ → ℚ) → List (List (List ℕ)) → List ((ℕ → ℚ) × (ℕ → ℚ))
  | _, [] => []
  | _, ebs :: rest =>
    let st0 : (ℕ → ℚ) × (ℕ → ℚ) := (fun _ => 0, fun _ => beta)
    let r := runEstimator alpha st0 (ebs.enum.map (fun c => (c.2, (c.1 : ℚ) + 1)))
    r.1 :: train_model_streaming alpha beta r.1 rest

/-- C1: one call of `sampling_p_estimation_single_hash` updates, for each
touched bucket `i`, `array_b i` to `(1-alpha)*array_b i + alpha*(s - array_a i)`
using the pre-call `array_a i`, sets `array_a i` to `s`, and returns one
`sampling_p` entry `1 / array_b' i` per touched bucket in input order,
computed from the updated `array_b`; concretely, from `array_a = [0]`,
`array_b = [100]`, `alpha = 0.01`, bucket 0 touched at step 1, the new
`array_b 0` is `99.01` and the returned `sampling_p` is `[1/99.01]`. -/
theorem C1_estimator_update (array_a array_b : ℕ → ℚ) (hash_indexs : List ℕ)
    (s alpha : ℚ) (i : ℕ) (hi : i ∈ hash_indexs) :
    (sampling_p_estimation_single_hash array_a array_b hash_indexs s alpha).2.1 i
      = (1 - alpha) * array_b i + alpha * (s - array_a i) ∧
    (sampling_p_estimation_single_hash array_a array_b hash_indexs s alpha).1 i = s ∧
    (sampling_p_estimation_single_hash array_a array_b hash_indexs s alpha).2.2
      = hash_indexs.map (fun j =>
          1 / (sampling_p_estimation_single_hash array_a array_b hash_indexs s alpha).2.1 j) ∧
    (sampling_p_estimation_single_hash (fun _ => 0) (fun _ => 100) [0] 1 (1/100)).2.1 0
      = 9901/100 ∧
    (sampling_p_estimation_single_hash (fun _ => 0) (fun _ => 100) [0] 1 (1/100)).2.2
      = [100/9901] := by
  refine ⟨?_, ?_, rfl, ?_, ?_⟩
  · simp [sampling_p_estimation_single_hash, hi]
  · simp [sampling_p_estimation_single_hash, hi]
  · norm_num [sampling_p_estimation_single_hash]
  · norm_num [sampling_p_estimation_single_hash]

/-- C1 witness: the theorem applied at the concrete input of the claim. -/
theorem C1_estimator_update_witness :
    (0 : ℕ) ∈ [0] ∧
    ((sampling_p_estimation_single_hash (fun _ => (0:ℚ)) (fun _ => 100) [0] 1 (1/100)).2.1 0
        = (1 - 1/100) * (fun _ => (100:ℚ)) 0 + (1/100) * (1 - (fun _ => (0:ℚ)) 0) ∧
      (sampling_p_estimation_single_hash (fun _ => (0:ℚ)) (fun _ => 100) [0] 1 (1/100)).1 0 = 1 ∧
      (sampling_p_estimation_single_hash (fun _ => (0:ℚ)) (fun _ => 100) [0] 1 (1/100)).2.2
        = [0].map (fun j =>
            1 / (sampling_p_estimation_single_hash (fun _ => (0:ℚ)) (fun _ => 100) [0] 1 (1/100)).2.1 j) ∧
      (sampling_p_estimation_single_hash (fun _ => 0) (fun _ => 100) [0] 1 (1/100)).2.1 0
        = 9901/100 ∧
      (sampling_p_estimation_single_hash (fun _ => 0) (fun _ => 100) [0] 1 (1/100)).2.2
        = [100/9901]) :=
  ⟨by decide, C1_estimator_update (fun _ => 0) (fun _ => 100) [0] 1 (1/100) 0 (by decide)⟩

/-- C4 counterexample: on the batch `output = reward = [0,0,0]` (all-zero
reward) with the default `k = 10`, `tf.math.top_k` is evaluated before the
zero-reward guard and raises because the batch has fewer than `k` entries, so
neither metric returns `0` — refuting the claim for arbitrary batches. -/
theorem C4_allzero_counterexample :
    countNonzero [0, 0, 0] = 0 ∧
    topk_recall [0, 0, 0] [0, 0, 0] 10 = none ∧
    topk_positive [0, 0, 0] [0, 0, 0] 10 = none := by
  norm_num [countNonzero, List.filter, topk_recall, topk_positive, top_k_indices]

/-- C4 amended: for every batch with at least `k` entries whose reward vector
has no nonzero entry, `topk_recall` and `topk_positive` both return exactly
`0` through the short-circuit branch, with no division by zero or error. -/
theorem C4_allzero_returns_zero (output reward : List ℚ) (k : ℕ)
    (hk : k ≤ output.length) (hz : countNonzero reward = 0) :
    topk_recall output reward k = some 0 ∧
    topk_positive output reward k = some 0 := by
  simp [topk_recall, topk_positive, top_k_indices, hk, hz]

/-- C4 witness: a length-4 all-zero batch with `k = 2`. -/
theorem C4_allzero_returns_zero_witness :
    2 ≤ [0, 0, 0, 0].length ∧ countNonzero [0, 0, 0, 0] = 0 ∧
    (topk_recall [0, 0, 0, 0] [0, 0, 0, 0] 2 = some 0 ∧
     topk_positive [0, 0, 0, 0] [0, 0, 0, 0] 2 = some 0) :=
  ⟨by decide, by norm_num [countNonzero, List.filter],
    C4_allzero_returns_zero [0, 0, 0, 0] [0, 0, 0, 0] 2 (by decide)
      (by norm_num [countNonzero, List.filter])⟩

/-- C5: for a batch with at least `k` entries and at least one nonzero
reward, `topk_recall` is the count of nonzero-reward entries among the `k`
highest-scoring examples over the count of nonzero-reward entries in the
whole batch, and `topk_positive` is the former count over `k`; on the
4-example batch with `reward = [1,0,1,0]`, `k = 2` and scores ranking the
examples `[2,0,1,3]` descending, both metrics are `1`. -/
theorem C5_topk_metrics (output reward : List ℚ) (k : ℕ)
    (hk : k ≤ output.length) (hnz : 0 < countNonzero reward) :
    (∃ indices, top_k_indices output k = some indices ∧
      topk_recall output reward k
        = some ((countNonzero (gather reward indices) : ℚ)
            / (countNonzero reward : ℚ)) ∧
      topk_positive output reward k
        = some ((countNonzero (gather reward indices) : ℚ) / (k : ℚ))) ∧
    topk_recall [3/10, 2/10, 4/10, 1/10] [1, 0, 1, 0] 2 = some 1 ∧
    topk_positive [3/10, 2/10, 4/10, 1/10] [1, 0, 1, 0] 2 = some 1 := by
  refine ⟨⟨((rankSort output.enum).map Prod.fst).take k, ?_, ?_, ?_⟩, ?_, ?_⟩
  · simp [top_k_indices, hk]
  · simp [topk_recall, top_k_indices, hk, hnz]
  · simp [topk_positive, top_k_indices, hk, hnz]
  · norm_num [topk_recall, top_k_indices, rankSort, insertRanked,
      countNonzero, gather, List.enum, List.enumFrom, List.filter]
  · norm_num [topk_positive, top_k_indices, rankSort, insertRanked,
      countNonzero, gather, List.enum, List.enumFrom, List.filter]

/-- C5 witness: the theorem applied at the batch of the claim. -/
theorem C5_topk_metrics_witness :
    2 ≤ [3/10, 2/10, 4/10, 1/10].length ∧
    0 < countNonzero [1, 0, 1, 0] ∧
    ((∃ indices, top_k_indices [3/10, 2/10, 4/10, 1/10] 2 = some indices ∧
      topk_recall [3/10, 2/10, 4/10, 1/10] [1, 0, 1, 0] 2
        = some ((countNonzero (gather [1, 0, 1, 0] indices) : ℚ)
            / (countNonzero [1, 0, 1, 0] : ℚ)) ∧
      topk_positive [3/10, 2/10, 4/10, 1/10] [1, 0, 1, 0] 2
        = some ((countNonzero (gather [1, 0, 1, 0] indices) : ℚ) / ((2:ℕ) : ℚ))) ∧
    topk_recall [3/10, 2/10, 4/10, 1/10] [1, 0, 1, 0] 2 = some 1 ∧
    topk_positive [3/10, 2/10, 4/10, 1/10] [1, 0, 1, 0] 2 = some 1) :=
  ⟨by decide, by norm_num [countNonzero, List.filter],
    C5_topk_metrics [3/10, 2/10, 4/10, 1/10] [1, 0, 1, 0] 2 (by decide)
      (by norm_num [countNonzero, List.filter])⟩

/-- C7 counterexample: the fixed label weight vector
`[0.5, 0.2, 0.1, 0.2, 0.0]` sums to `1`, not to `0.8` as claimed. -/
theorem C7_weights_sum_counterexample :
    label_weights.sum = 1 ∧ ¬ label_weights.sum = 4/5 := by
  norm_num [label_weights]

/-- C7 amended: the fixed label weight vector sums to `1.0`, and the weighted
combination applied to the decoded label vector `[1,1,0,0,0]` (click and like
observed) yields a reward of `0.5 + 0.2 = 0.7`. -/
theorem C7_weighted_reward :
    label_weights.sum = 1 ∧ weight_labels [1, 1, 0, 0, 0] = 7/10 := by
  norm_num [label_weights, weight_labels]

/-- C8: for integer ids and a positive bucket count, `hash_simple` returns
values in `[0, bucket_count)`, is the pure modulo mapping after the int32
coercion, and is deterministic (the same id always maps to the same bucket). -/
theorem C8_hash_simple (ids : List ℤ) (hash_bucket_size : ℤ)
    (hb : 0 < hash_bucket_size) :
    (∀ r ∈ hash_simple ids hash_bucket_size, 0 ≤ r ∧ r < hash_bucket_size) ∧
    hash_simple ids hash_bucket_size
      = ids.map (fun i => toInt32 i % hash_bucket_size) ∧
    (∀ i ∈ ids, ∀ j ∈ ids, i = j →
      toInt32 i % hash_bucket_size = toInt32 j % hash_bucket_size) := by
  refine ⟨?_, rfl, ?_⟩
  · intro r hr
    simp only [hash_simple, List.mem_map] at hr
    obtain ⟨i, _, rfl⟩ := hr
    exact ⟨Int.emod_nonneg _ (ne_of_gt hb), Int.emod_lt_of_pos _ hb⟩
  · intro i _ j _ hij
    rw [hij]

/-- C8 witness: ids `[5, 17, 2^31]` with bucket count `7`. -/
theorem C8_hash_simple_witness :
    (0 : ℤ) < 7 ∧
    ((∀ r ∈ hash_simple [5, 17, 2^31] 7, 0 ≤ r ∧ r < 7) ∧
     hash_simple [5, 17, 2^31] 7 = [5, 17, 2^31].map (fun i => toInt32 i % 7) ∧
     (∀ i ∈ [(5:ℤ), 17, 2^31], ∀ j ∈ [(5:ℤ), 17, 2^31], i = j →
       toInt32 i % 7 = toInt32 j % 7)) :=
  ⟨by decide, C8_hash_simple [5, 17, 2^31] 7 (by decide)⟩

/-- C10: `topk_recall` and `topk_positive` require at least `k` examples in
the batch (the `tf.math.top_k` call): on a batch with a nonzero reward entry
but fewer than `k` output entries, the top-k selection fails (raises) instead
of returning a value. -/
theorem C10_topk_needs_k_examples (output reward : List ℚ) (k : ℕ)
    (hlt : output.length < k) (hnz : 0 < countNonzero reward) :
    top_k_indices output k = none ∧
    topk_recall output reward k = none ∧
    topk_positive output reward k = none := by
  have h : ¬ k ≤ output.length := by omega
  simp [topk_recall, topk_positive, top_k_indices, h]

/-- C10 witness: a 3-example batch with a nonzero reward and the default
`k = 10`. -/
theorem C10_topk_needs_k_examples_witness :
    [1/2, 1/4, 1/8].length < 10 ∧ 0 < countNonzero [1, 0, 0] ∧
    (top_k_indices [1/2, 1/4, 1/8] 10 = none ∧
     topk_recall [1/2, 1/4, 1/8] [1, 0, 0] 10 = none ∧
     topk_positive [1/2, 1/4, 1/8] [1, 0, 0] 10 = none) :=
  ⟨by decide, by norm_num [countNonzero, List.filter],
    C10_topk_needs_k_examples [1/2, 1/4, 1/8] [1, 0, 0] 10 (by decide)
      (by norm_num [countNonzero, List.filter])⟩

theorem samp_array_a_apply (array_a array_b : ℕ → ℚ) (hash_indexs : List ℕ)
    (s alpha : ℚ) (i : ℕ) :
    (sampling_p_estimation_single_hash array_a array_b hash_indexs s alpha).1 i
      = if i ∈ hash_indexs then s else array_a i := rfl

theorem samp_array_b_apply (array_a array_b : ℕ → ℚ) (hash_indexs : List ℕ)
    (s alpha : ℚ) (i : ℕ) :
    (sampling_p_estimation_single_hash array_a array_b hash_indexs s alpha).2.1 i
      = if i ∈ hash_indexs then (1 - alpha) * array_b i + alpha * (s - array_a i)
        else array_b i := rfl

theorem samp_sampling_p_eq (array_a array_b : ℕ → ℚ) (hash_indexs : List ℕ)
    (s alpha : ℚ) :
    (sampling_p_estimation_single_hash array_a array_b hash_indexs s alpha).2.2
      = hash_indexs.map (fun i =>
          1 / (sampling_p_estimation_single_hash array_a array_b hash_indexs s alpha).2.1 i) := rfl

theorem runEstimator_nil (alpha : ℚ) (st : (ℕ → ℚ) × (ℕ → ℚ)) :
    runEstimator alpha st [] = (st, []) := rfl

theorem runEstimator_cons (alpha : ℚ) (st : (ℕ → ℚ) × (ℕ → ℚ))
    (c : List ℕ × ℚ) (rest : List (List ℕ × ℚ)) :
    runEstimator alpha st (c :: rest)
      = ((runEstimator alpha
            ((sampling_p_estimation_single_hash st.1 st.2 c.1 c.2 alpha).1,
             (sampling_p_estimation_single_hash st.1 st.2 c.1 c.2 alpha).2.1) rest).1,
         (sampling_p_estimation_single_hash st.1 st.2 c.1 c.2 alpha).2.2
           :: (runEstimator alpha
                ((sampling_p_estimation_single_hash st.1 st.2 c.1 c.2 alpha).1,
                 (sampling_p_estimation_single_hash st.1 st.2 c.1 c.2 alpha).2.1) rest).2) := rfl

/-- Positivity invariant of the estimator state: with `0 < alpha ≤ 1`, a
strictly positive `array_b` and every pending step strictly above every
`array_a` entry, steps strictly increasing, `array_b` stays strictly
positive through `runEstimator` and every returned `sampling_p` entry is
strictly positive. -/
theorem runEstimator_pos (alpha : ℚ) (h0 : 0 < alpha) (h1 : alpha ≤ 1)
    (calls : List (List ℕ × ℚ)) :
    ∀ (a b : ℕ → ℚ), (∀ i, 0 < b i) →
      (∀ c ∈ calls, ∀ i, a i < c.2) →
      List.Pairwise (fun c d => c.2 < d.2) calls →
      (∀ i, 0 < (runEstimator alpha (a, b) calls).1.2 i) ∧
      (∀ ps ∈ (runEstimator alpha (a, b) calls).2, ∀ p ∈ ps, 0 < p) := by
  induction calls with
  | nil =>
    intro a b hb _ _
    exact ⟨hb, by simp [runEstimator_nil]⟩
  | cons c rest ih =>
    intro a b hb ha hp
    rw [List.pairwise_cons] at hp
    have hb' : ∀ i,
        0 < (sampling_p_estimation_single_hash a b c.1 c.2 alpha).2.1 i := by
      intro i
      rw [samp_array_b_apply]
      by_cases hm : i ∈ c.1
      · rw [if_pos hm]
        have h2 : a i < c.2 := ha c (List.mem_cons_self c rest) i
        have t1 : 0 ≤ (1 - alpha) * b i :=
          mul_nonneg (by linarith) (le_of_lt (hb i))
        have t2 : 0 < alpha * (c.2 - a i) := mul_pos h0 (by linarith)
        linarith
      · rw [if_neg hm]; exact hb i
    have ha' : ∀ d ∈ rest, ∀ i,
        (sampling_p_estimation_single_hash a b c.1 c.2 alpha).1 i < d.2 := by
      intro d hd i
      rw [samp_array_a_apply]
      by_cases hm : i ∈ c.1
      · rw [if_pos hm]; exact hp.1 d hd
      · rw [if_neg hm]; exact ha d (List.mem_cons_of_mem c hd) i
    have main := ih (sampling_p_estimation_single_hash a b c.1 c.2 alpha).1
      (sampling_p_estimation_single_hash a b c.1 c.2 alpha).2.1 hb' ha' hp.2
    rw [runEstimator_cons]
    refine ⟨main.1, ?_⟩
    intro ps hps
    rcases List.mem_cons.mp hps with hh | hh
    · subst hh
      intro p hpp
      rw [samp_sampling_p_eq] at hpp
      rcases List.mem_map.mp hpp with ⟨j, _, rfl⟩
      exact one_div_pos.mpr (hb' j)
    · exact main.2 ps hh

/-- C2: with `alpha` in `(0,1]`, `beta > 0`, the epoch-start state
(`array_a` all zeros, `array_b` all `beta`), and step values that start at
`1` or above and strictly increase across calls, every `array_b` entry is
still strictly positive after any sequence of
`sampling_p_estimation_single_hash` calls, and every `sampling_p` value any
call returned is strictly positive (hence finite). -/
theorem C2_array_b_stays_positive (alpha beta : ℚ) (calls : List (List ℕ × ℚ))
    (h0 : 0 < alpha) (h1 : alpha ≤ 1) (hbeta : 0 < beta)
    (hstart : ∀ c ∈ calls, 1 ≤ c.2)
    (hmono : List.Pairwise (fun c d => c.2 < d.2) calls) :
    (∀ i, 0 < (runEstimator alpha (fun _ => 0, fun _ => beta) calls).1.2 i) ∧
    (∀ ps ∈ (runEstimator alpha (fun _ => 0, fun _ => beta) calls).2,
      ∀ p ∈ ps, 0 < p) :=
  runEstimator_pos alpha h0 h1 calls (fun _ => 0) (fun _ => beta)
    (fun _ => hbeta)
    (fun c hc i => lt_of_lt_of_le zero_lt_one (hstart c hc))
    hmono

/-- C2 witness: two calls, buckets `[0]` at step `1` then `[0, 1]` at step
`2`, with `alpha = 0.01` and `beta = 100`. -/
theorem C2_array_b_stays_positive_witness :
    (0 : ℚ) < 1/100 ∧ (1 : ℚ)/100 ≤ 1 ∧ (0 : ℚ) < 100 ∧
    (∀ c ∈ [([0], (1 : ℚ)), ([0, 1], 2)], 1 ≤ c.2) ∧
    List.Pairwise (fun c d => c.2 < d.2) [([0], (1 : ℚ)), ([0, 1], 2)] ∧
    ((∀ i, 0 < (runEstimator (1/100) (fun _ => 0, fun _ => 100)
        [([0], (1 : ℚ)), ([0, 1], 2)]).1.2 i) ∧
     (∀ ps ∈ (runEstimator (1/100) (fun _ => 0, fun _ => 100)
        [([0], (1 : ℚ)), ([0, 1], 2)]).2, ∀ p ∈ ps, 0 < p)) := by
  have hstart : ∀ c ∈ [([0], (1 : ℚ)), ([0, 1], 2)], 1 ≤ c.2 := by
    intro c hc
    rcases List.mem_cons.mp hc with rfl | hc
    · norm_num
    rcases List.mem_cons.mp hc with rfl | hc
    · norm_num
    · simp at hc
  have hmono : List.Pairwise (fun c d => c.2 < d.2)
      [([0], (1 : ℚ)), ([0, 1], 2)] := by
    refine List.Pairwise.cons ?_ (List.pairwise_singleton _ _)
    intro d hd
    rcases List.mem_singleton.mp hd with rfl
    norm_num
  exact ⟨by norm_num, by norm_num, by norm_num, hstart, hmono,
    C2_array_b_stays_positive (1/100) 100 [([0], 1), ([0, 1], 2)]
      (by norm_num) (by norm_num) (by norm_num) hstart hmono⟩

/-- C9: in streaming mode the epoch loop of `train_model` overwrites the
bucket-state arrays at the start of every epoch with fresh zero-filled
`array_a` and `beta`-filled `array_b`, so the end-of-epoch states are
exactly the states of independent fresh per-epoch runs — no bucket state
carries over across epoch boundaries, whatever state `st` was live before
the loop and whatever the earlier epochs did. -/
theorem C9_fresh_epoch_state (alpha beta : ℚ) (st : (ℕ → ℚ) × (ℕ → ℚ))
    (epochBatches : List (List (List ℕ))) :
    train_model_streaming alpha beta st epochBatches
      = epochBatches.map (fun ebs => (streamingEpoch alpha beta ebs).1) := by
  induction epochBatches generalizing st with
  | nil => rfl
  | cons ebs rest ih =>
    simp only [train_model_streaming, List.map_cons]
    rw [ih]
    rfl

theorem sum_zipWith_eq_range (f : ℝ → ℝ → ℝ) :
    ∀ (l1 l2 : List ℝ) (n : ℕ), l1.length = n → l2.length = n →
      (List.zipWith f l1 l2).sum
        = ∑ i ∈ Finset.range n, f (l1.getD i 0) (l2.getD i 0) := by
  intro l1
  induction l1 with
  | nil =>
    intro l2 n h1 _
    simp [← h1]
  | cons a t ih =>
    intro l2 n h1 h2
    cases l2 with
    | nil => simp at h1 h2; omega
    | cons b t2 =>
      cases n with
      | zero => simp at h1
      | succ m =>
        simp only [List.zipWith_cons_cons, List.sum_cons]
        rw [Finset.sum_range_succ']
        simp only [List.getD_cons_succ, List.getD_cons_zero]
        rw [ih t2 m (by simpa using h1) (by simpa using h2)]
        exact add_comm _ _

/-- C6: `reward_cross_entropy(reward, output)` is the negated mean over the
batch of `reward i * log (output i)`. -/
theorem C6_reward_cross_entropy (reward output : List ℝ) (n : ℕ)
    (hr : reward.length = n) (ho : output.length = n)
    (hpos : ∀ o ∈ output, 0 < o) :
    reward_cross_entropy Real.log reward output
      = -((∑ i ∈ Finset.range n,
            reward.getD i 0 * Real.log (output.getD i 0)) / (n : ℝ)) := by
  simp only [reward_cross_entropy]
  rw [sum_zipWith_eq_range (fun r o => r * Real.log o) reward output n hr ho, hr]

/-- C6 witness: the single-example batch `reward = [1]`, `output = [1]`. -/
theorem C6_reward_cross_entropy_witness :
    [(1 : ℝ)].length = 1 ∧ [(1 : ℝ)].length = 1 ∧ (∀ o ∈ [(1 : ℝ)], 0 < o) ∧
    reward_cross_entropy Real.log [(1 : ℝ)] [(1 : ℝ)]
      = -((∑ i ∈ Finset.range 1,
            [(1 : ℝ)].getD i 0 * Real.log ([(1 : ℝ)].getD i 0)) / ((1 : ℕ) : ℝ)) :=
  ⟨rfl, rfl, by norm_num,
    C6_reward_cross_entropy [1] [1] 1 rfl rfl (by norm_num)⟩

theorem inner_product_length (x y : List (List ℝ)) :
    (inner_product x y).length = min x.length y.length := by
  simp [inner_product]

theorem log_q_some_length (klog : ℝ → ℝ) (x y : List (List ℝ)) (p : List ℝ)
    (t : ℝ) (hy : y.length = x.length) (hp : p.length = x.length) :
    (log_q klog x y (some p) t).length = x.length := by
  simp [log_q, inner_product, hy, hp]

theorem log_q_some_getD (klog : ℝ → ℝ) (x y : List (List ℝ)) (p : List ℝ)
    (t : ℝ) (i : ℕ) (hx : i < x.length) (hy : i < y.length) (hp : i < p.length) :
    (log_q klog x y (some p) t).getD i 0
      = (List.zipWith (fun a b => a * b) (x.getD i []) (y.getD i [])).sum / t
          - klog (p.getD i 0) := by
  have h1 : i < (inner_product x y).length := by
    rw [inner_product_length]; omega
  have h2 : i < ((inner_product x y).map (fun v => v / t)).length := by
    simpa using h1
  have h3 : i < (List.zipWith (fun v lp => v - klog lp)
      ((inner_product x y).map (fun v => v / t)) p).length := by
    simp only [List.length_zipWith, List.length_map]
    omega
  show (List.zipWith (fun v lp => v - klog lp)
      ((inner_product x y).map (fun v => v / t)) p).getD i 0 = _
  rw [List.getD_eq_getElem _ _ h3, List.getElem_zipWith,
    List.getElem_map, List.getD_eq_getElem _ _ hp]
  simp only [inner_product, List.getElem_zipWith,
    List.getD_eq_getElem _ _ hx, List.getD_eq_getElem _ _ hy]

theorem log_q_none_getD (klog : ℝ → ℝ) (x y : List (List ℝ))
    (t : ℝ) (i : ℕ) (hx : i < x.length) (hy : i < y.length) :
    (log_q klog x y none t).getD i 0
      = (List.zipWith (fun a b => a * b) (x.getD i []) (y.getD i [])).sum / t := by
  have h1 : i < (inner_product x y).length := by
    rw [inner_product_length]; omega
  have h2 : i < ((inner_product x y).map (fun v => v / t)).length := by
    simpa using h1
  show ((inner_product x y).map (fun v => v / t)).getD i 0 = _
  rw [List.getD_eq_getElem _ _ h2, List.getElem_map]
  simp only [inner_product, List.getElem_zipWith,
    List.getD_eq_getElem _ _ hx, List.getD_eq_getElem _ _ hy]

/-- C3: `log_q` is the per-example dot product over the temperature minus
`log sampling_p` (the subtraction omitted when `sampling_p` is `None`), and
`corrected_batch_softmax` is the softmax of the `log_q` score vector (at the
default temperature `0.05`) over the batch: entrywise nonnegative and
summing to `1`, a probability distribution over the (nonempty) batch. -/
theorem C3_log_q_and_softmax (x y : List (List ℝ)) (p : List ℝ) (t : ℝ)
    (hy : y.length = x.length) (hp : p.length = x.length)
    (hppos : ∀ q ∈ p, 0 < q) (hne : x ≠ []) :
    (∀ i, i < x.length →
      (log_q Real.log x y (some p) t).getD i 0
        = (List.zipWith (fun a b => a * b) (x.getD i []) (y.getD i [])).sum / t
            - Real.log (p.getD i 0)) ∧
    (∀ i, i < x.length →
      (log_q Real.log x y none t).getD i 0
        = (List.zipWith (fun a b => a * b) (x.getD i []) (y.getD i [])).sum / t) ∧
    corrected_batch_softmax Real.exp Real.log x y (some p)
      = (log_q Real.log x y (some p) (1/20)).map
          (fun zi => Real.exp zi /
            ((log_q Real.log x y (some p) (1/20)).map Real.exp).sum) ∧
    (∀ v ∈ corrected_batch_softmax Real.exp Real.log x y (some p), 0 ≤ v) ∧
    (corrected_batch_softmax Real.exp Real.log x y (some p)).sum = 1 := by
  have hznil : log_q Real.log x y (some p) (1/20) ≠ [] := by
    have hlen := log_q_some_length Real.log x y p (1/20) hy hp
    intro hcon
    rw [hcon, List.length_nil] at hlen
    exact hne (List.eq_nil_of_length_eq_zero hlen.symm)
  have hS : 0 < ((log_q Real.log x y (some p) (1/20)).map Real.exp).sum := by
    apply List.sum_pos
    · intro a ha
      rcases List.mem_map.mp ha with ⟨zi, _, rfl⟩
      exact Real.exp_pos zi
    · simpa using hznil
  refine ⟨?_, ?_, rfl, ?_, ?_⟩
  · intro i hi
    exact log_q_some_getD Real.log x y p t i hi (by omega) (by omega)
  · intro i hi
    exact log_q_none_getD Real.log x y t i hi (by omega)
  · intro v hv
    rcases List.mem_map.mp hv with ⟨zi, _, rfl⟩
    exact le_of_lt (div_pos (Real.exp_pos zi) hS)
  · show ((log_q Real.log x y (some p) (1/20)).map
      (fun zi => Real.exp zi /
        ((log_q Real.log x y (some p) (1/20)).map Real.exp).sum)).sum = 1
    simp only [div_eq_mul_inv, List.sum_map_mul_right]
    exact mul_inv_cancel₀ (ne_of_gt hS)

/-- C3 witness: single-row batches `x = y = [[1]]`, `sampling_p = [1]`,
temperature `1`. -/
theorem C3_log_q_and_softmax_witness :
    [[(1 : ℝ)]].length = [[(1 : ℝ)]].length ∧
    [(1 : ℝ)].length = [[(1 : ℝ)]].length ∧
    (∀ q ∈ [(1 : ℝ)], 0 < q) ∧ [[(1 : ℝ)]] ≠ [] ∧
    ((∀ i, i < [[(1 : ℝ)]].length →
      (log_q Real.log [[(1 : ℝ)]] [[(1 : ℝ)]] (some [1]) 1).getD i 0
        = (List.zipWith (fun a b => a * b)
            ([[(1 : ℝ)]].getD i []) ([[(1 : ℝ)]].getD i [])).sum / 1
            - Real.log ([(1 : ℝ)].getD i 0)) ∧
    (∀ i, i < [[(1 : ℝ)]].length →
      (log_q Real.log [[(1 : ℝ)]] [[(1 : ℝ)]] none 1).getD i 0
        = (List.zipWith (fun a b => a * b)
            ([[(1 : ℝ)]].getD i []) ([[(1 : ℝ)]].getD i [])).sum / 1) ∧
    corrected_batch_softmax Real.exp Real.log [[(1 : ℝ)]] [[(1 : ℝ)]] (some [1])
      = (log_q Real.log [[(1 : ℝ)]] [[(1 : ℝ)]] (some [1]) (1/20)).map
          (fun zi => Real.exp zi /
            ((log_q Real.log [[(1 : ℝ)]] [[(1 : ℝ)]] (some [1]) (1/20)).map
              Real.exp).sum) ∧
    (∀ v ∈ corrected_batch_softmax Real.exp Real.log [[(1 : ℝ)]] [[(1 : ℝ)]]
        (some [1]), 0 ≤ v) ∧
    (corrected_batch_softmax Real.exp Real.log [[(1 : ℝ)]] [[(1 : ℝ)]]
        (some [1])).sum = 1) :=
  ⟨rfl, rfl, by norm_num, by simp,
    C3_log_q_and_softmax [[1]] [[1]] [1] 1 rfl rfl (by norm_num) (by simp)⟩

end DeepRecommend
